import Mathlib

/-!
Verification of the `bst` crate: a height-balanced (AVL-style) binary search
tree (`src/lib.rs`).  The Rust `enum BST<T> { Empty, Node { left, value, right } }`
is embedded as the inductive `BST α`; each in-place method of `impl<T> BST<T>`
becomes a pure function returning the updated tree.  The generic `T: Ord` of the
source is modelled by `[LinearOrder α]`.  The `rebalance` loop of the source is
given fuel `2 * depth + 2`; a decreasing measure argument below shows this fuel
is always enough, i.e. the loop always exits with the root balance factor in
`[-1, 1]`.
-/

set_option maxHeartbeats 1000000

inductive BST (α : Type) where
  | empty : BST α
  | node (left : BST α) (value : α) (right : BST α) : BST α
  deriving DecidableEq

namespace BST

variable {α : Type}

/-- `BST::is_empty`. -/
def isEmpty : BST α → Bool
  | .empty => true
  | .node _ _ _ => false

/-- `BST::clear` (resets to `Empty`). -/
def clear (_ : BST α) : BST α := .empty

/-- `BST::root_value`. -/
def rootValue : BST α → Option α
  | .empty => none
  | .node _ v _ => some v

/-- `BST::count_nodes`. -/
def countNodes : BST α → Nat
  | .empty => 0
  | .node l _ r => 1 + countNodes l + countNodes r

/-- `BST::depth`. -/
def depth : BST α → Nat
  | .empty => 0
  | .node l _ r => 1 + max (depth l) (depth r)

/-- `BST::balance_factor` (`depth(left) - depth(right)` as a signed integer). -/
def balanceFactor : BST α → Int
  | .empty => 0
  | .node l _ r => (depth l : Int) - (depth r : Int)

/-- `impl Clone for BST<T>`: recursive deep copy. -/
def cloneBST : BST α → BST α
  | .empty => .empty
  | .node l v r => .node (cloneBST l) v (cloneBST r)

/-- `impl PartialEq for BST<T>`: structural, shape-sensitive equality. -/
def bstEq [DecidableEq α] : BST α → BST α → Bool
  | .empty, .empty => true
  | .node l1 v1 r1, .node l2 v2 r2 => v1 = v2 && bstEq l1 l2 && bstEq r1 r2
  | _, _ => false

/-- `BST::find`. -/
def find [LinearOrder α] : BST α → α → Option (BST α)
  | .empty, _ => none
  | .node l value r, v =>
    if value = v then some (.node l value r)
    else if v < value then find l v
    else find r v

/-- `BST::contains`. -/
def contains [LinearOrder α] (t : BST α) (v : α) : Bool := (find t v).isSome

/-- `BST::rotate_left`: no-op when the tree or its right subtree is `Empty`. -/
def rotateLeft : BST α → BST α
  | .empty => .empty
  | .node l v .empty => .node l v .empty
  | .node l v (.node rl rv rr) => .node (.node l v rl) rv rr

/-- `BST::rotate_right`: no-op when the tree or its left subtree is `Empty`. -/
def rotateRight : BST α → BST α
  | .empty => .empty
  | .node .empty v r => .node .empty v r
  | .node (.node ll lv lr) v r => .node ll lv (.node lr v r)

/-- `BST::rotate_left_right`: rotate the left subtree left, then the whole tree
right; no-op when the tree or its left subtree is `Empty`. -/
def rotateLeftRight : BST α → BST α
  | .empty => .empty
  | .node l v r => if l.isEmpty then .node l v r else rotateRight (.node (rotateLeft l) v r)

/-- `BST::rotate_right_left`: rotate the right subtree right, then the whole
tree left; no-op when the tree or its right subtree is `Empty`. -/
def rotateRightLeft : BST α → BST α
  | .empty => .empty
  | .node l v r => if r.isEmpty then .node l v r else rotateLeft (.node l v (rotateRight r))

/-- One iteration of the `loop` body in `BST::rebalance`: applies at most one
rotation according to the balance factors; returns the tree unchanged on the
`break`/`return` paths (root balance factor already in `[-1, 1]`, or `Empty`). -/
def rebalanceStep : BST α → BST α
  | .empty => .empty
  | .node l v r =>
    if balanceFactor (.node l v r) > 1 then
      if l.isEmpty then .node l v r
      else if balanceFactor l ≥ 0 then rotateRight (.node l v r)
      else rotateLeftRight (.node l v r)
    else if balanceFactor (.node l v r) < -1 then
      if r.isEmpty then .node l v r
      else if balanceFactor r ≤ 0 then rotateLeft (.node l v r)
      else rotateRightLeft (.node l v r)
    else .node l v r

/-- The `rebalance` loop with explicit fuel. -/
def rebalanceAux : Nat → BST α → BST α
  | 0, t => t
  | n + 1, t =>
    if 1 < t.balanceFactor.natAbs then rebalanceAux n (rebalanceStep t) else t

/-- `BST::rebalance`: the fuel `2 * depth t + 2` is proven sufficient below
(the loop measure `loopMeasure` strictly decreases at every iteration), so this
equals the source's loop-until-stable semantics. -/
def rebalance (t : BST α) : BST α := rebalanceAux (2 * depth t + 2) t

/-- Termination measure for the `rebalance` loop. -/
def loopMeasure (t : BST α) : Nat :=
  2 * depth t + (if t.balanceFactor.natAbs ≤ 1 then 0 else 1)

/-- `BST::insert`: descend by comparison, rebalancing on the way back up; equal
value is a no-op (early `return`, no rebalance). -/
def insert [LinearOrder α] : BST α → α → BST α
  | .empty, v => rebalance (.node .empty v .empty)
  | .node l value r, v =>
    if value = v then .node l value r
    else if v < value then rebalance (.node (insert l v) value r)
    else rebalance (.node l value (insert r v))

/-- `BST::take_max`: the extracted maximum (if any) together with the updated
tree.  The node holding the maximum is replaced by its left child; every node
above it on the right spine is rebalanced. -/
def takeMax : BST α → Option α × BST α
  | .empty => (none, .empty)
  | .node l v .empty => (some v, l)
  | .node l v (.node rl rv rr) =>
    let p := takeMax (.node rl rv rr)
    (p.1, rebalance (.node l v p.2))

/-- `BST::remove`: ordered descent; splice at the matching node (empty-child
cases) or predecessor promotion via `take_max` (two-children case); the `Empty`
case returns early, every other path rebalances the current node. -/
def remove [LinearOrder α] : BST α → α → BST α
  | .empty, _ => .empty
  | .node l value r, v =>
    if v < value then rebalance (.node (remove l v) value r)
    else if value < v then rebalance (.node l value (remove r v))
    else if l.isEmpty then rebalance r
    else if r.isEmpty then rebalance l
    else
      match takeMax l with
      | (some m, l2) => rebalance (.node l2 m r)
      | (none, l2) => rebalance (.node l2 value r)

/-- In-order traversal (left, value, right). -/
def inorder : BST α → List α
  | .empty => []
  | .node l v r => inorder l ++ v :: inorder r

/-- Every node satisfies `|balance_factor| ≤ 1`. -/
def isBalanced : BST α → Bool
  | .empty => true
  | .node l v r =>
    decide ((balanceFactor (.node l v r)).natAbs ≤ 1) && isBalanced l && isBalanced r

/-- All values stored in the tree satisfy `p`. -/
def allB (p : α → Bool) : BST α → Bool
  | .empty => true
  | .node l v r => p v && allB p l && allB p r

/-- The binary-search order invariant: at every node, all left-subtree values
are strictly below the node value and all right-subtree values strictly above. -/
def isOrdered [LinearOrder α] : BST α → Bool
  | .empty => true
  | .node l v r =>
    allB (fun x => decide (x < v)) l && allB (fun x => decide (v < x)) r
      && isOrdered l && isOrdered r

/-- Trees reachable from the empty tree by the public mutators. -/
inductive Reachable [LinearOrder α] : BST α → Prop where
  | empty : Reachable .empty
  | insert (v : α) {t : BST α} : Reachable t → Reachable (t.insert v)
  | remove (v : α) {t : BST α} : Reachable t → Reachable (t.remove v)

/-! ### Basic equations -/

@[simp] lemma depth_empty : depth (.empty : BST α) = 0 := rfl

@[simp] lemma depth_node (l r : BST α) (v : α) :
    depth (.node l v r) = 1 + max (depth l) (depth r) := rfl

@[simp] lemma balanceFactor_empty : balanceFactor (.empty : BST α) = 0 := rfl

@[simp] lemma balanceFactor_node (l r : BST α) (v : α) :
    balanceFactor (.node l v r) = (depth l : Int) - (depth r : Int) := rfl

@[simp] lemma inorder_empty : inorder (.empty : BST α) = [] := rfl

@[simp] lemma inorder_node (l r : BST α) (v : α) :
    inorder (.node l v r) = inorder l ++ v :: inorder r := rfl

@[simp] lemma isEmpty_empty : isEmpty (.empty : BST α) = true := rfl

@[simp] lemma isEmpty_node (l r : BST α) (v : α) : isEmpty (.node l v r) = false := rfl

@[simp] lemma countNodes_empty : countNodes (.empty : BST α) = 0 := rfl

@[simp] lemma countNodes_node (l r : BST α) (v : α) :
    countNodes (.node l v r) = 1 + countNodes l + countNodes r := rfl

lemma depth_eq_zero_iff (t : BST α) : depth t = 0 ↔ t = .empty := by
  cases t <;> simp [depth]

lemma length_inorder (t : BST α) : (inorder t).length = countNodes t := by
  induction t with
  | empty => rfl
  | node l v r ihl ihr => simp [inorder, countNodes, ihl, ihr]; omega

lemma isBalanced_node (l r : BST α) (v : α) :
    isBalanced (.node l v r) = true ↔
      ((depth l : Int) - (depth r : Int)).natAbs ≤ 1 ∧
        isBalanced l = true ∧ isBalanced r = true := by
  simp [isBalanced, Bool.and_eq_true, and_assoc]

/-! ### Rotation shapes and in-order preservation -/

lemma rotateLeft_shape (l rl rr : BST α) (v rv : α) :
    rotateLeft (.node l v (.node rl rv rr)) = .node (.node l v rl) rv rr := rfl

lemma rotateRight_shape (ll lr r : BST α) (lv v : α) :
    rotateRight (.node (.node ll lv lr) v r) = .node ll lv (.node lr v r) := rfl

lemma rotateLeftRight_shape (ll p q r : BST α) (lv y v : α) :
    rotateLeftRight (.node (.node ll lv (.node p y q)) v r) =
      .node (.node ll lv p) y (.node q v r) := rfl

lemma rotateRightLeft_shape (l p q rr : BST α) (v y rv : α) :
    rotateRightLeft (.node l v (.node (.node p y q) rv rr)) =
      .node (.node l v p) y (.node q rv rr) := rfl

lemma inorder_rotateLeft (t : BST α) : inorder (rotateLeft t) = inorder t := by
  match t with
  | .empty => rfl
  | .node l v .empty => rfl
  | .node l v (.node rl rv rr) => simp [rotateLeft, inorder]

lemma inorder_rotateRight (t : BST α) : inorder (rotateRight t) = inorder t := by
  match t with
  | .empty => rfl
  | .node .empty v r => rfl
  | .node (.node ll lv lr) v r => simp [rotateRight, inorder]

lemma inorder_rotateLeftRight (t : BST α) : inorder (rotateLeftRight t) = inorder t := by
  match t with
  | .empty => rfl
  | .node l v r =>
    simp only [rotateLeftRight]
    by_cases h : l.isEmpty
    · simp [h]
    · simp [h, inorder_rotateRight, inorder, inorder_rotateLeft]

lemma inorder_rotateRightLeft (t : BST α) : inorder (rotateRightLeft t) = inorder t := by
  match t with
  | .empty => rfl
  | .node l v r =>
    simp only [rotateRightLeft]
    by_cases h : r.isEmpty
    · simp [h]
    · simp [h, inorder_rotateLeft, inorder, inorder_rotateRight]

/-! ### The rebalance loop: step evaluation, termination measure, exit condition -/

lemma rebalanceStep_of_le {t : BST α} (h : t.balanceFactor.natAbs ≤ 1) :
    rebalanceStep t = t := by
  cases t with
  | empty => rfl
  | node l v r =>
    simp only [balanceFactor_node] at h
    have h1 : ¬ balanceFactor (.node l v r) > 1 := by
      simp only [balanceFactor_node]; omega
    have h2 : ¬ balanceFactor (.node l v r) < -1 := by
      simp only [balanceFactor_node]; omega
    simp only [rebalanceStep]
    rw [if_neg h1, if_neg h2]

lemma rebalanceStep_rr (ll lr r : BST α) (lv v : α)
    (h2 : depth r + 2 ≤ depth (.node ll lv lr)) (hlf : depth lr ≤ depth ll) :
    rebalanceStep (.node (.node ll lv lr) v r) = .node ll lv (.node lr v r) := by
  have hgt : balanceFactor (.node (.node ll lv lr) v r) > 1 := by
    simp only [balanceFactor_node]; omega
  have hlf2 : balanceFactor (.node ll lv lr) ≥ 0 := by
    simp only [balanceFactor_node]; omega
  have hne : ¬ (isEmpty (.node ll lv lr) = true) := by simp
  simp only [rebalanceStep]
  rw [if_pos hgt, if_neg hne, if_pos hlf2]
  exact rotateRight_shape ll lr r lv v

lemma rebalanceStep_lr (ll p q r : BST α) (lv y v : α)
    (h2 : depth r + 2 ≤ depth (.node ll lv (.node p y q)))
    (hlf : depth ll < depth (.node p y q)) :
    rebalanceStep (.node (.node ll lv (.node p y q)) v r) =
      .node (.node ll lv p) y (.node q v r) := by
  have hgt : balanceFactor (.node (.node ll lv (.node p y q)) v r) > 1 := by
    simp only [balanceFactor_node]; omega
  have hlf2 : ¬ balanceFactor (.node ll lv (.node p y q)) ≥ 0 := by
    simp only [balanceFactor_node]; omega
  have hne : ¬ (isEmpty (.node ll lv (.node p y q)) = true) := by simp
  simp only [rebalanceStep]
  rw [if_pos hgt, if_neg hne, if_neg hlf2]
  exact rotateLeftRight_shape ll p q r lv y v

lemma rebalanceStep_ll (l rl rr : BST α) (v rv : α)
    (h2 : depth l + 2 ≤ depth (.node rl rv rr)) (hrf : depth rl ≤ depth rr) :
    rebalanceStep (.node l v (.node rl rv rr)) = .node (.node l v rl) rv rr := by
  have hng : ¬ balanceFactor (.node l v (.node rl rv rr)) > 1 := by
    simp only [balanceFactor_node]; omega
  have hlt : balanceFactor (.node l v (.node rl rv rr)) < -1 := by
    simp only [balanceFactor_node]; omega
  have hrf2 : balanceFactor (.node rl rv rr) ≤ 0 := by
    simp only [balanceFactor_node]; omega
  have hne : ¬ (isEmpty (.node rl rv rr) = true) := by simp
  simp only [rebalanceStep]
  rw [if_neg hng, if_pos hlt, if_neg hne, if_pos hrf2]
  exact rotateLeft_shape l rl rr v rv

lemma rebalanceStep_rl (l p q rr : BST α) (v y rv : α)
    (h2 : depth l + 2 ≤ depth (.node (.node p y q) rv rr))
    (hrf : depth rr < depth (.node p y q)) :
    rebalanceStep (.node l v (.node (.node p y q) rv rr)) =
      .node (.node l v p) y (.node q rv rr) := by
  have hng : ¬ balanceFactor (.node l v (.node (.node p y q) rv rr)) > 1 := by
    simp only [balanceFactor_node]; omega
  have hlt : balanceFactor (.node l v (.node (.node p y q) rv rr)) < -1 := by
    simp only [balanceFactor_node]; omega
  have hrf2 : ¬ balanceFactor (.node (.node p y q) rv rr) ≤ 0 := by
    simp only [balanceFactor_node]; omega
  have hne : ¬ (isEmpty (.node (.node p y q) rv rr) = true) := by simp
  simp only [rebalanceStep]
  rw [if_neg hng, if_pos hlt, if_neg hne, if_neg hrf2]
  exact rotateRightLeft_shape l p q rr v y rv

lemma loopMeasure_le (t : BST α) : loopMeasure t ≤ 2 * depth t + 1 := by
  simp only [loopMeasure]; split <;> omega

/-- Each genuine iteration of the `rebalance` loop strictly decreases the
measure; this is the termination argument for the source's unbounded loop. -/
lemma loopMeasure_step_lt (t : BST α) (h : 1 < t.balanceFactor.natAbs) :
    loopMeasure (rebalanceStep t) < loopMeasure t := by
  match t with
  | .empty => simp [balanceFactor] at h
  | .node l v r =>
    simp only [balanceFactor_node] at h
    rcases (by omega : depth r + 2 ≤ depth l ∨ depth l + 2 ≤ depth r) with hL | hR
    · cases l with
      | empty => simp [depth] at hL
      | node ll lv lr =>
        by_cases hlf : depth lr ≤ depth ll
        · rw [rebalanceStep_rr ll lr r lv v hL hlf]
          simp only [depth_node] at hL h
          simp only [loopMeasure, depth_node, balanceFactor_node]
          split_ifs <;> omega
        · cases lr with
          | empty => exact absurd (Nat.zero_le _) hlf
          | node p y q =>
            rw [rebalanceStep_lr ll p q r lv y v hL (by omega)]
            simp only [depth_node] at hL h hlf
            simp only [loopMeasure, depth_node, balanceFactor_node]
            split_ifs <;> omega
    · cases r with
      | empty => simp [depth] at hR
      | node rl rv rr =>
        by_cases hrf : depth rl ≤ depth rr
        · rw [rebalanceStep_ll l rl rr v rv hR hrf]
          simp only [depth_node] at hR h
          simp only [loopMeasure, depth_node, balanceFactor_node]
          split_ifs <;> omega
        · cases rl with
          | empty => exact absurd (Nat.zero_le _) hrf
          | node p y q =>
            rw [rebalanceStep_rl l p q rr v y rv hR (by omega)]
            simp only [depth_node] at hR h hrf
            simp only [loopMeasure, depth_node, balanceFactor_node]
            split_ifs <;> omega

lemma rebalanceAux_zero (t : BST α) : rebalanceAux 0 t = t := rfl

lemma rebalanceAux_succ (n : Nat) (t : BST α) :
    rebalanceAux (n + 1) t =
      if 1 < t.balanceFactor.natAbs then rebalanceAux n (rebalanceStep t) else t := rfl

lemma rebalanceAux_of_le (n : Nat) {t : BST α} (h : t.balanceFactor.natAbs ≤ 1) :
    rebalanceAux n t = t := by
  cases n with
  | zero => rfl
  | succ k => rw [rebalanceAux_succ, if_neg (by omega)]

/-- The loop is a silent no-op on a tree whose root is already balanced. -/
lemma rebalance_of_le {t : BST α} (h : t.balanceFactor.natAbs ≤ 1) :
    rebalance t = t := rebalanceAux_of_le _ h

lemma rebalanceAux_stable : ∀ (n : Nat) {t : BST α}, loopMeasure t ≤ n → ∀ m, n ≤ m →
    rebalanceAux n t = rebalanceAux m t := by
  intro n
  induction n with
  | zero =>
    intro t ht m _
    have hb : t.balanceFactor.natAbs ≤ 1 := by
      by_contra hc
      simp only [loopMeasure, if_neg hc] at ht
      omega
    rw [rebalanceAux_zero, rebalanceAux_of_le m hb]
  | succ k ih =>
    intro t ht m hm
    cases m with
    | zero => omega
    | succ m2 =>
      rw [rebalanceAux_succ, rebalanceAux_succ]
      by_cases hb : 1 < t.balanceFactor.natAbs
      · rw [if_pos hb, if_pos hb]
        exact ih (by have := loopMeasure_step_lt t hb; omega) m2 (by omega)
      · rw [if_neg hb, if_neg hb]

lemma rebalanceAux_congr {t : BST α} {n m : Nat} (hn : loopMeasure t ≤ n)
    (hm : loopMeasure t ≤ m) : rebalanceAux n t = rebalanceAux m t := by
  rcases Nat.le_total n m with h | h
  · exact rebalanceAux_stable n hn m h
  · exact (rebalanceAux_stable m hm n h).symm

/-- Unfolding equation of `rebalance` on an unbalanced root: one more loop
iteration. -/
lemma rebalance_step_eq {t : BST α} (h : 1 < t.balanceFactor.natAbs) :
    rebalance t = rebalance (rebalanceStep t) := by
  have h2 := loopMeasure_step_lt t h
  calc rebalance t = rebalanceAux (2 * depth t + 1 + 1) t := rfl
    _ = rebalanceAux (2 * depth t + 1) (rebalanceStep t) := by
        rw [rebalanceAux_succ, if_pos h]
    _ = rebalanceAux (2 * depth (rebalanceStep t) + 2) (rebalanceStep t) := by
        apply rebalanceAux_congr
        · have := loopMeasure_le t; omega
        · have := loopMeasure_le (rebalanceStep t); omega
    _ = rebalance (rebalanceStep t) := rfl

lemma balanceFactor_rebalanceAux : ∀ (n : Nat) {t : BST α}, loopMeasure t ≤ n →
    (rebalanceAux n t).balanceFactor.natAbs ≤ 1 := by
  intro n
  induction n with
  | zero =>
    intro t ht
    have hb : t.balanceFactor.natAbs ≤ 1 := by
      by_contra hc
      simp only [loopMeasure, if_neg hc] at ht
      omega
    rwa [rebalanceAux_zero]
  | succ k ih =>
    intro t ht
    rw [rebalanceAux_succ]
    by_cases hb : 1 < t.balanceFactor.natAbs
    · rw [if_pos hb]
      exact ih (by have := loopMeasure_step_lt t hb; omega)
    · rw [if_neg hb]; omega

/-- The `rebalance` loop always terminates with the root balance factor back in
`[-1, 1]`. -/
lemma balanceFactor_rebalance (t : BST α) : (rebalance t).balanceFactor.natAbs ≤ 1 :=
  balanceFactor_rebalanceAux _ (le_trans (loopMeasure_le t) (by omega))

lemma inorder_rebalanceStep (t : BST α) : inorder (rebalanceStep t) = inorder t := by
  cases t with
  | empty => rfl
  | node l v r =>
    simp only [rebalanceStep]
    split_ifs <;>
      simp [inorder_rotateRight, inorder_rotateLeft, inorder_rotateLeftRight,
        inorder_rotateRightLeft]

lemma inorder_rebalanceAux (n : Nat) (t : BST α) :
    inorder (rebalanceAux n t) = inorder t := by
  induction n generalizing t with
  | zero => rfl
  | succ k ih =>
    rw [rebalanceAux_succ]
    split_ifs with h
    · rw [ih, inorder_rebalanceStep]
    · rfl

/-- Rebalancing never changes the in-order value sequence. -/
lemma inorder_rebalance (t : BST α) : inorder (rebalance t) = inorder t :=
  inorder_rebalanceAux _ t

/-! ### Rebalance restores the balance invariant after a one-level disturbance -/

lemma rebalance_node_spec (l r : BST α) (v : α)
    (hl : isBalanced l = true) (hr : isBalanced r = true)
    (hd : ((depth l : Int) - (depth r : Int)).natAbs ≤ 2) :
    isBalanced (rebalance (.node l v r)) = true ∧
      max (depth l) (depth r) ≤ depth (rebalance (.node l v r)) ∧
      depth (rebalance (.node l v r)) ≤ 1 + max (depth l) (depth r) := by
  by_cases h1 : ((depth l : Int) - (depth r : Int)).natAbs ≤ 1
  · rw [rebalance_of_le (by simp only [balanceFactor_node]; omega)]
    refine ⟨(isBalanced_node l r v).mpr ⟨h1, hl, hr⟩, ?_, ?_⟩ <;>
      simp only [depth_node] <;> omega
  · have hstep : rebalance (.node l v r) = rebalance (rebalanceStep (.node l v r)) :=
      rebalance_step_eq (by simp only [balanceFactor_node]; omega)
    rcases (by omega : depth r + 2 ≤ depth l ∨ depth l + 2 ≤ depth r) with hL | hR
    · cases l with
      | empty => simp [depth] at hL
      | node ll lv lr =>
        obtain ⟨hbl, hll, hlr⟩ := (isBalanced_node ll lr lv).mp hl
        by_cases hlf : depth lr ≤ depth ll
        · rw [hstep, rebalanceStep_rr ll lr r lv v hL hlf]
          simp only [depth_node] at hd h1 hL
          have hbfu : (balanceFactor (.node ll lv (.node lr v r))).natAbs ≤ 1 := by
            simp only [balanceFactor_node, depth_node]; omega
          rw [rebalance_of_le hbfu]
          refine ⟨?_, ?_, ?_⟩
          · rw [isBalanced_node]
            refine ⟨?_, hll, ?_⟩
            · simp only [depth_node]; omega
            · rw [isBalanced_node]
              exact ⟨by omega, hlr, hr⟩
          · simp only [depth_node]; omega
          · simp only [depth_node]; omega
        · cases lr with
          | empty => exact absurd (Nat.zero_le _) hlf
          | node p y q =>
            obtain ⟨hbq, hp, hq⟩ := (isBalanced_node p q y).mp hlr
            rw [hstep, rebalanceStep_lr ll p q r lv y v hL (by omega)]
            simp only [depth_node] at hd h1 hL hlf hbl
            have hbfu :
                (balanceFactor (.node (.node ll lv p) y (.node q v r))).natAbs ≤ 1 := by
              simp only [balanceFactor_node, depth_node]; omega
            rw [rebalance_of_le hbfu]
            refine ⟨?_, ?_, ?_⟩
            · rw [isBalanced_node]
              refine ⟨?_, ?_, ?_⟩
              · simp only [depth_node]; omega
              · rw [isBalanced_node]
                exact ⟨by omega, hll, hp⟩
              · rw [isBalanced_node]
                exact ⟨by omega, hq, hr⟩
            · simp only [depth_node]; omega
            · simp only [depth_node]; omega
    · cases r with
      | empty => simp [depth] at hR
      | node rl rv rr =>
        obtain ⟨hbr, hrl, hrr⟩ := (isBalanced_node rl rr rv).mp hr
        by_cases hrf : depth rl ≤ depth rr
        · rw [hstep, rebalanceStep_ll l rl rr v rv hR hrf]
          simp only [depth_node] at hd h1 hR
          have hbfu : (balanceFactor (.node (.node l v rl) rv rr)).natAbs ≤ 1 := by
            simp only [balanceFactor_node, depth_node]; omega
          rw [rebalance_of_le hbfu]
          refine ⟨?_, ?_, ?_⟩
          · rw [isBalanced_node]
            refine ⟨?_, ?_, hrr⟩
            · simp only [depth_node]; omega
            · rw [isBalanced_node]
              exact ⟨by omega, hl, hrl⟩
          · simp only [depth_node]; omega
          · simp only [depth_node]; omega
        · cases rl with
          | empty => exact absurd (Nat.zero_le _) hrf
          | node p y q =>
            obtain ⟨hbq, hp, hq⟩ := (isBalanced_node p q y).mp hrl
            rw [hstep, rebalanceStep_rl l p q rr v y rv hR (by omega)]
            simp only [depth_node] at hd h1 hR hrf hbr
            have hbfu :
                (balanceFactor (.node (.node l v p) y (.node q rv rr))).natAbs ≤ 1 := by
              simp only [balanceFactor_node, depth_node]; omega
            rw [rebalance_of_le hbfu]
            refine ⟨?_, ?_, ?_⟩
            · rw [isBalanced_node]
              refine ⟨?_, ?_, ?_⟩
              · simp only [depth_node]; omega
              · rw [isBalanced_node]
                exact ⟨by omega, hl, hp⟩
              · rw [isBalanced_node]
                exact ⟨by omega, hq, hrr⟩
            · simp only [depth_node]; omega
            · simp only [depth_node]; omega

lemma balanceFactor_of_isBalanced {t : BST α} (h : isBalanced t = true) :
    t.balanceFactor.natAbs ≤ 1 := by
  cases t with
  | empty => simp [balanceFactor]
  | node l v r =>
    have := ((isBalanced_node l r v).mp h).1
    simp only [balanceFactor_node]
    omega

/-! ### Balance preservation by insert, take_max, remove -/

lemma insert_balance [LinearOrder α] (t : BST α) (v : α) (h : isBalanced t = true) :
    isBalanced (insert t v) = true ∧ depth t ≤ depth (insert t v) ∧
      depth (insert t v) ≤ depth t + 1 := by
  induction t with
  | empty =>
    have h0 : insert (.empty : BST α) v = rebalance (.node .empty v .empty) := rfl
    rw [h0, rebalance_of_le (by simp [balanceFactor_node, depth]) ]
    refine ⟨(isBalanced_node _ _ _).mpr ⟨by simp [depth], rfl, rfl⟩, ?_, ?_⟩ <;>
      simp [depth]
  | node l w r ihl ihr =>
    obtain ⟨hb, hl, hr⟩ := (isBalanced_node l r w).mp h
    simp only [insert]
    by_cases hev : w = v
    · rw [if_pos hev]
      exact ⟨h, le_refl _, by omega⟩
    · rw [if_neg hev]
      by_cases hlt : v < w
      · rw [if_pos hlt]
        obtain ⟨ih1, ih2, ih3⟩ := ihl hl
        have hd : ((depth (insert l v) : Int) - depth r).natAbs ≤ 2 := by omega
        obtain ⟨rb, rlo, rhi⟩ := rebalance_node_spec (insert l v) r w ih1 hr hd
        refine ⟨rb, ?_, ?_⟩
        · by_cases hsm : ((depth (insert l v) : Int) - depth r).natAbs ≤ 1
          · rw [rebalance_of_le (by simp only [balanceFactor_node]; omega)]
            simp only [depth_node]; omega
          · simp only [depth_node]; omega
        · simp only [depth_node]; omega
      · rw [if_neg hlt]
        obtain ⟨ih1, ih2, ih3⟩ := ihr hr
        have hd : ((depth l : Int) - depth (insert r v)).natAbs ≤ 2 := by omega
        obtain ⟨rb, rlo, rhi⟩ := rebalance_node_spec l (insert r v) w hl ih1 hd
        refine ⟨rb, ?_, ?_⟩
        · by_cases hsm : ((depth l : Int) - depth (insert r v)).natAbs ≤ 1
          · rw [rebalance_of_le (by simp only [balanceFactor_node]; omega)]
            simp only [depth_node]; omega
          · simp only [depth_node]; omega
        · simp only [depth_node]; omega

lemma takeMax_fst (t : BST α) (h : t.isEmpty = false) :
    ((takeMax t).1).isSome = true := by
  induction t with
  | empty => simp [isEmpty] at h
  | node l w r ihl ihr =>
    cases r with
    | empty => rfl
    | node rl rv rr =>
      simp only [takeMax]
      exact ihr rfl

lemma takeMax_inorder (t : BST α) (h : t.isEmpty = false) :
    ∃ m, (takeMax t).1 = some m ∧ inorder t = inorder (takeMax t).2 ++ [m] := by
  induction t with
  | empty => simp [isEmpty] at h
  | node l w r ihl ihr =>
    cases r with
    | empty => exact ⟨w, rfl, by simp [takeMax, inorder]⟩
    | node rl rv rr =>
      obtain ⟨m, hm1, hm2⟩ := ihr rfl
      refine ⟨m, ?_, ?_⟩
      · simp only [takeMax]; exact hm1
      · show inorder (.node l w (.node rl rv rr)) =
          inorder (rebalance (.node l w (takeMax (.node rl rv rr)).2)) ++ [m]
        rw [inorder_rebalance, inorder_node l (takeMax (.node rl rv rr)).2 w,
          inorder_node l (.node rl rv rr) w, hm2]
        simp

lemma takeMax_balance (t : BST α) (h : isBalanced t = true) :
    isBalanced (takeMax t).2 = true ∧ depth (takeMax t).2 ≤ depth t ∧
      depth t ≤ depth (takeMax t).2 + 1 := by
  induction t with
  | empty => exact ⟨rfl, le_refl _, by simp [takeMax, depth]⟩
  | node l w r ihl ihr =>
    obtain ⟨hb, hl, hr⟩ := (isBalanced_node l r w).mp h
    cases r with
    | empty =>
      have e : (takeMax (.node l w .empty)).2 = l := rfl
      rw [e]
      refine ⟨hl, ?_, ?_⟩ <;> simp only [depth_node, depth_empty] <;> omega
    | node rl rv rr =>
      obtain ⟨ih1, ih2, ih3⟩ := ihr hr
      simp only [takeMax]
      have hd : ((depth l : Int) - depth (takeMax (.node rl rv rr)).2).natAbs ≤ 2 := by
        omega
      obtain ⟨rb, rlo, rhi⟩ :=
        rebalance_node_spec l (takeMax (.node rl rv rr)).2 w hl ih1 hd
      simp only [depth_node] at ih2 ih3 hb
      refine ⟨rb, ?_, ?_⟩
      · simp only [depth_node]; omega
      · by_cases hsm : ((depth l : Int) - depth (takeMax (.node rl rv rr)).2).natAbs ≤ 1
        · rw [rebalance_of_le (by simp only [balanceFactor_node]; omega)]
          simp only [depth_node]; omega
        · simp only [depth_node]; omega

lemma remove_balance [LinearOrder α] (t : BST α) (v : α) (h : isBalanced t = true) :
    isBalanced (remove t v) = true ∧ depth (remove t v) ≤ depth t ∧
      depth t ≤ depth (remove t v) + 1 := by
  induction t with
  | empty => exact ⟨rfl, le_refl _, by simp [remove, depth]⟩
  | node l w r ihl ihr =>
    obtain ⟨hb, hl, hr⟩ := (isBalanced_node l r w).mp h
    simp only [remove]
    by_cases h1 : v < w
    · rw [if_pos h1]
      obtain ⟨ih1, ih2, ih3⟩ := ihl hl
      have hd : ((depth (remove l v) : Int) - depth r).natAbs ≤ 2 := by omega
      obtain ⟨rb, rlo, rhi⟩ := rebalance_node_spec (remove l v) r w ih1 hr hd
      refine ⟨rb, ?_, ?_⟩
      · simp only [depth_node]; omega
      · by_cases hsm : ((depth (remove l v) : Int) - depth r).natAbs ≤ 1
        · rw [rebalance_of_le (by simp only [balanceFactor_node]; omega)]
          simp only [depth_node]; omega
        · simp only [depth_node]; omega
    · rw [if_neg h1]
      by_cases h2 : w < v
      · rw [if_pos h2]
        obtain ⟨ih1, ih2, ih3⟩ := ihr hr
        have hd : ((depth l : Int) - depth (remove r v)).natAbs ≤ 2 := by omega
        obtain ⟨rb, rlo, rhi⟩ := rebalance_node_spec l (remove r v) w hl ih1 hd
        refine ⟨rb, ?_, ?_⟩
        · simp only [depth_node]; omega
        · by_cases hsm : ((depth l : Int) - depth (remove r v)).natAbs ≤ 1
          · rw [rebalance_of_le (by simp only [balanceFactor_node]; omega)]
            simp only [depth_node]; omega
          · simp only [depth_node]; omega
      · rw [if_neg h2]
        cases l with
        | empty =>
          show isBalanced (rebalance r) = true ∧
            depth (rebalance r) ≤ depth (.node .empty w r) ∧
            depth (.node .empty w r) ≤ depth (rebalance r) + 1
          rw [rebalance_of_le (balanceFactor_of_isBalanced hr)]
          refine ⟨hr, ?_, ?_⟩ <;> simp only [depth_node, depth_empty] <;> omega
        | node a b c =>
          cases r with
          | empty =>
            show isBalanced (rebalance (.node a b c)) = true ∧
              depth (rebalance (.node a b c)) ≤ depth (.node (.node a b c) w .empty) ∧
              depth (.node (.node a b c) w .empty) ≤ depth (rebalance (.node a b c)) + 1
            rw [rebalance_of_le (balanceFactor_of_isBalanced hl)]
            refine ⟨hl, ?_, ?_⟩ <;> simp only [depth_node, depth_empty] <;> omega
          | node d e f =>
            rw [if_neg (by simp), if_neg (by simp)]
            rcases htm : takeMax (.node a b c) with ⟨mo, l2⟩
            have e1 : (takeMax (.node a b c)).1 = mo := by rw [htm]
            have e2 : (takeMax (.node a b c)).2 = l2 := by rw [htm]
            obtain ⟨tb, t2, t3⟩ := takeMax_balance (.node a b c) hl
            rw [e2] at tb t2 t3
            cases mo with
            | none =>
              have hs := takeMax_fst (.node a b c) rfl
              rw [e1] at hs
              simp at hs
            | some m =>
              show isBalanced (rebalance (.node l2 m (.node d e f))) = true ∧
                depth (rebalance (.node l2 m (.node d e f))) ≤
                  depth (.node (.node a b c) w (.node d e f)) ∧
                depth (.node (.node a b c) w (.node d e f)) ≤
                  depth (rebalance (.node l2 m (.node d e f))) + 1
              have hd : ((depth l2 : Int) - depth (.node d e f)).natAbs ≤ 2 := by
                omega
              obtain ⟨rb, rlo, rhi⟩ := rebalance_node_spec l2 (.node d e f) m tb hr hd
              simp only [depth_node] at hb t2 t3 rlo rhi
              refine ⟨rb, ?_, ?_⟩
              · simp only [depth_node]; omega
              · by_cases hsm : ((depth l2 : Int) - depth (.node d e f)).natAbs ≤ 1
                · rw [rebalance_of_le (by simp only [balanceFactor_node]; omega)]
                  simp only [depth_node] at hsm ⊢; omega
                · simp only [depth_node] at hsm ⊢; omega

/-! ### Sorted-list view of insertion and removal -/

/-- Effect of `insert` on the in-order value list (spec-level helper used only
to state lemmas about `insert`). -/
def listInsert [LinearOrder α] (v : α) : List α → List α
  | [] => [v]
  | x :: xs => if x = v then x :: xs else if v < x then v :: x :: xs else x :: listInsert v xs

lemma mem_listInsert [LinearOrder α] (v y : α) (l : List α) :
    y ∈ listInsert v l ↔ y = v ∨ y ∈ l := by
  induction l with
  | nil => simp [listInsert]
  | cons x xs ih =>
    simp only [listInsert]
    by_cases h1 : x = v
    · subst h1
      rw [if_pos rfl]
      simp only [List.mem_cons]
      tauto
    · rw [if_neg h1]
      by_cases h2 : v < x
      · rw [if_pos h2]
        simp [List.mem_cons]
      · rw [if_neg h2]
        simp only [List.mem_cons, ih]
        tauto

lemma length_listInsert_of_not_mem [LinearOrder α] (v : α) (l : List α) (h : v ∉ l) :
    (listInsert v l).length = l.length + 1 := by
  induction l with
  | nil => rfl
  | cons x xs ih =>
    simp only [List.mem_cons, not_or] at h
    simp only [listInsert]
    rw [if_neg (fun hh => h.1 hh.symm)]
    by_cases h2 : v < x
    · simp [h2]
    · rw [if_neg h2]
      simp [ih h.2]

lemma listInsert_of_mem_sorted [LinearOrder α] (v : α) (l : List α)
    (hs : l.Pairwise (· < ·)) (h : v ∈ l) : listInsert v l = l := by
  induction l with
  | nil => simp at h
  | cons x xs ih =>
    simp only [listInsert]
    by_cases h1 : x = v
    · rw [if_pos h1]
    · rw [if_neg h1]
      have hx : v ∈ xs := by
        rcases List.mem_cons.mp h with h2 | h2
        · exact absurd h2.symm h1
        · exact h2
      have hlt : x < v := List.rel_of_pairwise_cons hs hx
      rw [if_neg (lt_asymm hlt), ih (List.Pairwise.of_cons hs) hx]

lemma pairwise_listInsert [LinearOrder α] (v : α) (l : List α)
    (hs : l.Pairwise (· < ·)) : (listInsert v l).Pairwise (· < ·) := by
  induction l with
  | nil => simp [listInsert]
  | cons x xs ih =>
    obtain ⟨hx, hxs⟩ := List.pairwise_cons.mp hs
    simp only [listInsert]
    by_cases h1 : x = v
    · rw [if_pos h1]; exact hs
    · rw [if_neg h1]
      by_cases h2 : v < x
      · rw [if_pos h2]
        refine List.pairwise_cons.mpr ⟨?_, hs⟩
        intro b hb
        rcases List.mem_cons.mp hb with rfl | hb2
        · exact h2
        · exact lt_trans h2 (hx b hb2)
      · rw [if_neg h2]
        refine List.pairwise_cons.mpr ⟨?_, ih hxs⟩
        intro b hb
        rcases (mem_listInsert v b xs).mp hb with rfl | hb2
        · exact lt_of_le_of_ne (le_of_not_lt h2) h1
        · exact hx b hb2

lemma listInsert_append_lt [LinearOrder α] (v w : α) (xs ys : List α) (h : v < w) :
    listInsert v (xs ++ w :: ys) = listInsert v xs ++ w :: ys := by
  induction xs with
  | nil =>
    simp only [List.nil_append, listInsert]
    rw [if_neg (ne_of_gt h), if_pos h]
    rfl
  | cons x xs ih =>
    simp only [List.cons_append, List.append_eq, listInsert]
    by_cases h1 : x = v
    · rw [if_pos h1, if_pos h1]
      simp
    · rw [if_neg h1, if_neg h1]
      by_cases h2 : v < x
      · rw [if_pos h2, if_pos h2]
        simp
      · rw [if_neg h2, if_neg h2, ih]
        simp

lemma listInsert_append_gt [LinearOrder α] (v w : α) (xs ys : List α)
    (hxs : ∀ x ∈ xs, x < v) (hw : w < v) :
    listInsert v (xs ++ w :: ys) = xs ++ w :: listInsert v ys := by
  induction xs with
  | nil =>
    simp only [List.nil_append, listInsert]
    rw [if_neg (ne_of_lt hw), if_neg (lt_asymm hw)]
  | cons x xs ih =>
    have hx : x < v := hxs x (by simp)
    simp only [List.cons_append, List.append_eq, listInsert]
    rw [if_neg (ne_of_lt hx), if_neg (lt_asymm hx),
      ih (fun y hy => hxs y (by simp [hy]))]

lemma listInsert_append_eq [LinearOrder α] (v : α) (xs ys : List α)
    (hxs : ∀ x ∈ xs, x < v) :
    listInsert v (xs ++ v :: ys) = xs ++ v :: ys := by
  induction xs with
  | nil => simp [listInsert]
  | cons x xs ih =>
    have hx : x < v := hxs x (by simp)
    simp only [List.cons_append, List.append_eq, listInsert]
    rw [if_neg (ne_of_lt hx), if_neg (lt_asymm hx),
      ih (fun y hy => hxs y (by simp [hy]))]

/-- On an ordered tree, `insert` edits the in-order list by sorted insertion. -/
lemma inorder_insert [LinearOrder α] (t : BST α) (v : α)
    (hs : (inorder t).Pairwise (· < ·)) :
    inorder (insert t v) = listInsert v (inorder t) := by
  induction t with
  | empty => rfl
  | node l w r ihl ihr =>
    rw [inorder_node] at hs
    obtain ⟨hsl, hsr2, hcross⟩ := List.pairwise_append.mp hs
    simp only [insert]
    by_cases hev : w = v
    · rw [if_pos hev]
      subst hev
      rw [inorder_node,
        listInsert_append_eq w (inorder l) (inorder r) (fun x hx => hcross x hx w (by simp))]
    · rw [if_neg hev]
      by_cases hlt : v < w
      · rw [if_pos hlt, inorder_rebalance, inorder_node, inorder_node, ihl hsl,
          listInsert_append_lt v w _ _ hlt]
      · rw [if_neg hlt]
        have hgt : w < v := lt_of_le_of_ne (le_of_not_lt hlt) hev
        rw [inorder_rebalance, inorder_node, inorder_node,
          ihr (List.Pairwise.of_cons hsr2),
          listInsert_append_gt v w _ _
            (fun x hx => lt_trans (hcross x hx w (by simp)) hgt) hgt]

/-- On an ordered tree, `remove` erases the value from the in-order list. -/
lemma inorder_remove [LinearOrder α] (t : BST α) (v : α)
    (hs : (inorder t).Pairwise (· < ·)) :
    inorder (remove t v) = (inorder t).erase v := by
  induction t with
  | empty => rfl
  | node l w r ihl ihr =>
    rw [inorder_node] at hs
    obtain ⟨hsl, hsr2, hcross⟩ := List.pairwise_append.mp hs
    obtain ⟨hw, hsr⟩ := List.pairwise_cons.mp hsr2
    simp only [remove]
    by_cases h1 : v < w
    · rw [if_pos h1, inorder_rebalance, inorder_node, inorder_node, ihl hsl]
      have hnv : v ∉ w :: inorder r := by
        intro hc
        rcases List.mem_cons.mp hc with rfl | hc2
        · exact absurd h1 (lt_irrefl v)
        · exact absurd h1 (lt_asymm (hw v hc2))
      by_cases hm : v ∈ inorder l
      · rw [List.erase_append_left _ hm]
      · rw [List.erase_of_not_mem hm, List.erase_append_right _ hm,
          List.erase_of_not_mem hnv]
    · rw [if_neg h1]
      by_cases h2 : w < v
      · rw [if_pos h2, inorder_rebalance, inorder_node, inorder_node, ihr hsr]
        have hnl : v ∉ inorder l := fun hc =>
          absurd (lt_trans (hcross v hc w (by simp)) h2) (lt_irrefl v)
        rw [List.erase_append_right _ hnl,
          List.erase_cons_tail (by simp [ne_of_lt h2])]
      · rw [if_neg h2]
        have hev : v = w := le_antisymm (le_of_not_lt h2) (le_of_not_lt h1)
        subst hev
        have hnl : v ∉ inorder l := fun hc =>
          absurd (hcross v hc v (by simp)) (lt_irrefl v)
        cases l with
        | empty =>
          show inorder (rebalance r) = (inorder (.node .empty v r)).erase v
          rw [inorder_rebalance, inorder_node .empty r v, inorder_empty,
            List.nil_append, List.erase_cons_head]
        | node a b c =>
          cases r with
          | empty =>
            show inorder (rebalance (.node a b c)) =
              (inorder (.node (.node a b c) v .empty)).erase v
            rw [inorder_rebalance, inorder_node (.node a b c) .empty v, inorder_empty,
              List.erase_append_right _ hnl, List.erase_cons_head, List.append_nil]
          | node d e f =>
            rw [if_neg (by simp), if_neg (by simp)]
            rcases htm : takeMax (.node a b c) with ⟨mo, l2⟩
            have e1 : (takeMax (.node a b c)).1 = mo := by rw [htm]
            have e2 : (takeMax (.node a b c)).2 = l2 := by rw [htm]
            obtain ⟨m, hm1, hm2⟩ := takeMax_inorder (.node a b c) rfl
            rw [e1] at hm1
            rw [e2] at hm2
            subst hm1
            show inorder (rebalance (.node l2 m (.node d e f))) =
              (inorder (.node (.node a b c) v (.node d e f))).erase v
            rw [inorder_rebalance, inorder_node l2 (.node d e f) m,
              inorder_node (.node a b c) (.node d e f) v,
              List.erase_append_right _ hnl, List.erase_cons_head, hm2]
            simp

/-! ### Search, membership, and the order predicate -/

lemma contains_node [LinearOrder α] (l r : BST α) (w v : α) :
    contains (.node l w r) v =
      if w = v then true else if v < w then contains l v else contains r v := by
  simp only [contains, find]
  split_ifs <;> rfl

lemma mem_inorder_of_contains [LinearOrder α] {t : BST α} {v : α}
    (h : contains t v = true) : v ∈ inorder t := by
  induction t with
  | empty => simp [contains, find] at h
  | node l w r ihl ihr =>
    rw [contains_node] at h
    by_cases h1 : w = v
    · subst h1
      simp
    · rw [if_neg h1] at h
      by_cases h2 : v < w
      · rw [if_pos h2] at h
        simp [List.mem_append, ihl h]
      · rw [if_neg h2] at h
        simp [List.mem_append, ihr h]

lemma contains_of_mem_sorted [LinearOrder α] {t : BST α} {v : α}
    (hs : (inorder t).Pairwise (· < ·)) (h : v ∈ inorder t) : contains t v = true := by
  induction t with
  | empty => simp at h
  | node l w r ihl ihr =>
    rw [inorder_node] at hs h
    obtain ⟨hsl, hsr2, hcross⟩ := List.pairwise_append.mp hs
    obtain ⟨hw, hsr⟩ := List.pairwise_cons.mp hsr2
    rw [contains_node]
    by_cases h1 : w = v
    · rw [if_pos h1]
    · rw [if_neg h1]
      rcases List.mem_append.mp h with hml | hmr
      · rw [if_pos (hcross v hml w (by simp))]
        exact ihl hsl hml
      · rcases List.mem_cons.mp hmr with he | hmr2
        · exact absurd he.symm h1
        · rw [if_neg (lt_asymm (hw v hmr2))]
          exact ihr hsr hmr2

lemma contains_iff_mem [LinearOrder α] {t : BST α} {v : α}
    (hs : (inorder t).Pairwise (· < ·)) : contains t v = true ↔ v ∈ inorder t :=
  ⟨mem_inorder_of_contains, contains_of_mem_sorted hs⟩

lemma allB_node (p : α → Bool) (l r : BST α) (v : α) :
    allB p (.node l v r) = (p v && allB p l && allB p r) := rfl

lemma allB_iff (p : α → Bool) (t : BST α) :
    allB p t = true ↔ ∀ x ∈ inorder t, p x = true := by
  induction t with
  | empty => simp [allB]
  | node l v r ihl ihr =>
    rw [allB_node, Bool.and_eq_true, Bool.and_eq_true, ihl, ihr, inorder_node]
    constructor
    · rintro ⟨⟨h1, h2⟩, h3⟩ x hx
      rcases List.mem_append.mp hx with hx | hx
      · exact h2 x hx
      · rcases List.mem_cons.mp hx with rfl | hx
        · exact h1
        · exact h3 x hx
    · intro hh
      exact ⟨⟨hh v (by simp), fun x hx => hh x (by simp [hx])⟩,
        fun x hx => hh x (by simp [hx])⟩

lemma isOrdered_node [LinearOrder α] (l r : BST α) (v : α) :
    isOrdered (.node l v r) =
      (allB (fun x => decide (x < v)) l && allB (fun x => decide (v < x)) r
        && isOrdered l && isOrdered r) := rfl

/-- The structural order invariant is exactly strict sortedness of the in-order
value sequence. -/
lemma isOrdered_iff_pairwise [LinearOrder α] (t : BST α) :
    isOrdered t = true ↔ (inorder t).Pairwise (· < ·) := by
  induction t with
  | empty => simp [isOrdered]
  | node l v r ihl ihr =>
    rw [isOrdered_node, Bool.and_eq_true, Bool.and_eq_true, Bool.and_eq_true,
      ihl, ihr, allB_iff, allB_iff, inorder_node, List.pairwise_append]
    constructor
    · rintro ⟨⟨⟨hal, har⟩, hol⟩, hor⟩
      refine ⟨hol, ?_, ?_⟩
      · rw [List.pairwise_cons]
        exact ⟨fun y hy => by simpa using har y hy, hor⟩
      · intro a ha b hb
        rcases List.mem_cons.mp hb with rfl | hb
        · simpa using hal a ha
        · exact lt_trans (by simpa using hal a ha) (by simpa using har b hb)
    · rintro ⟨hol, hcr, hcross⟩
      obtain ⟨hw, hor⟩ := List.pairwise_cons.mp hcr
      refine ⟨⟨⟨?_, ?_⟩, hol⟩, hor⟩
      · intro x hx
        simpa using hcross x hx v (by simp)
      · intro x hx
        simpa using hw x hx

/-! ### The two invariants on reachable trees; duplicate/absent no-ops -/

/-- Both data-structure invariants hold on every reachable tree. -/
lemma reachable_invariant [LinearOrder α] {t : BST α} (h : Reachable t) :
    isBalanced t = true ∧ (inorder t).Pairwise (· < ·) := by
  induction h with
  | empty => exact ⟨rfl, List.Pairwise.nil⟩
  | insert v ht ih =>
    refine ⟨(insert_balance _ v ih.1).1, ?_⟩
    rw [inorder_insert _ v ih.2]
    exact pairwise_listInsert v _ ih.2
  | remove v ht ih =>
    refine ⟨(remove_balance _ v ih.1).1, ?_⟩
    rw [inorder_remove _ v ih.2]
    exact List.Pairwise.sublist (List.erase_sublist v _) ih.2

/-- Inserting a value already present into a balanced tree is the identity:
the descent stops at the equal value and every ancestor rebalance is a no-op. -/
lemma insert_of_contains [LinearOrder α] {t : BST α} {v : α}
    (hbal : isBalanced t = true) (hc : contains t v = true) : insert t v = t := by
  induction t with
  | empty => simp [contains, find] at hc
  | node l w r ihl ihr =>
    obtain ⟨hb, hl, hr⟩ := (isBalanced_node l r w).mp hbal
    rw [contains_node] at hc
    simp only [insert]
    by_cases h1 : w = v
    · rw [if_pos h1]
    · rw [if_neg h1]
      rw [if_neg h1] at hc
      by_cases h2 : v < w
      · rw [if_pos h2]
        rw [if_pos h2] at hc
        rw [ihl hl hc]
        exact rebalance_of_le (balanceFactor_of_isBalanced hbal)
      · rw [if_neg h2]
        rw [if_neg h2] at hc
        rw [ihr hr hc]
        exact rebalance_of_le (balanceFactor_of_isBalanced hbal)

/-- Removing an absent value from a balanced tree is the identity. -/
lemma remove_of_not_contains [LinearOrder α] {t : BST α} {v : α}
    (hbal : isBalanced t = true) (hc : contains t v = false) : remove t v = t := by
  induction t with
  | empty => rfl
  | node l w r ihl ihr =>
    obtain ⟨hb, hl, hr⟩ := (isBalanced_node l r w).mp hbal
    rw [contains_node] at hc
    simp only [remove]
    by_cases h1 : w = v
    · rw [if_pos h1] at hc
      simp at hc
    · rw [if_neg h1] at hc
      by_cases h2 : v < w
      · rw [if_pos h2] at hc
        rw [if_pos h2, ihl hl hc]
        exact rebalance_of_le (balanceFactor_of_isBalanced hbal)
      · rw [if_neg h2] at hc
        have h3 : w < v := lt_of_le_of_ne (le_of_not_lt h2) h1
        rw [if_neg (lt_asymm h3), if_pos h3, ihr hr hc]
        exact rebalance_of_le (balanceFactor_of_isBalanced hbal)

/-- Counting distinct fresh insertions. -/
lemma countNodes_foldl_insert [LinearOrder α] (l : List α) (t : BST α)
    (hs : (inorder t).Pairwise (· < ·)) (hdisj : ∀ x ∈ l, x ∉ inorder t)
    (hnd : l.Nodup) :
    countNodes (List.foldl insert t l) = countNodes t + l.length := by
  induction l generalizing t with
  | nil => simp
  | cons x xs ih =>
    rw [List.foldl_cons]
    have hs2 : (inorder (insert t x)).Pairwise (· < ·) := by
      rw [inorder_insert t x hs]
      exact pairwise_listInsert x _ hs
    have hmem : ∀ y, y ∈ inorder (insert t x) ↔ y = x ∨ y ∈ inorder t := by
      intro y
      rw [inorder_insert t x hs]
      exact mem_listInsert x y _
    have hcount : countNodes (insert t x) = countNodes t + 1 := by
      rw [← length_inorder, ← length_inorder, inorder_insert t x hs,
        length_listInsert_of_not_mem x _ (hdisj x (by simp))]
    obtain ⟨hx, hnd2⟩ := List.nodup_cons.mp hnd
    rw [ih (insert t x) hs2 (fun y hy hc => by
      rcases (hmem y).mp hc with rfl | hc2
      · exact hx hy
      · exact hdisj y (by simp [hy]) hc2) hnd2, hcount, List.length_cons]
    omega

/-- The `rebalance` loop computes, in finitely many iterations of its body, the
same result as the fuelled definition. -/
lemma iterate_rebalanceStep : ∀ (n : Nat) {t : BST α}, loopMeasure t ≤ n →
    rebalanceStep^[n] t = rebalanceAux n t := by
  intro n
  induction n with
  | zero => intro t ht; rfl
  | succ k ih =>
    intro t ht
    by_cases hb : 1 < t.balanceFactor.natAbs
    · rw [Function.iterate_succ_apply, rebalanceAux_succ, if_pos hb]
      exact ih (by have := loopMeasure_step_lt t hb; omega)
    · rw [rebalanceAux_succ, if_neg hb]
      exact Function.iterate_fixed (rebalanceStep_of_le (by omega)) (k + 1)

/-! ### The claims -/

/-- C1: for every tree reachable from the empty tree by any sequence of public
`insert` and `remove` operations, every node satisfies `|balance_factor| ≤ 1`
(equivalently `|depth(left) − depth(right)| ≤ 1` at every node). -/
theorem claim1_balance_invariant {α : Type} [LinearOrder α] (t : BST α)
    (h : Reachable t) : isBalanced t = true :=
  (reachable_invariant h).1

theorem claim1_witness : isBalanced (insert (.empty : BST Int) 1) = true :=
  claim1_balance_invariant _ (Reachable.insert 1 Reachable.empty)

/-- C2: for every tree reachable from the empty tree by any sequence of public
`insert` and `remove` operations, every node satisfies the binary-search order
invariant: left-subtree values < node value < right-subtree values. -/
theorem claim2_order_invariant {α : Type} [LinearOrder α] (t : BST α)
    (h : Reachable t) : isOrdered t = true :=
  (isOrdered_iff_pairwise t).mpr (reachable_invariant h).2

theorem claim2_witness : isOrdered (insert (.empty : BST Int) 1) = true :=
  claim2_order_invariant _ (Reachable.insert 1 Reachable.empty)

/-- C3: on every reachable tree containing `v`, after `remove v` the tree no
longer contains `v` and `count_nodes` is exactly one less than before. -/
theorem claim3_remove_correct {α : Type} [LinearOrder α] (t : BST α) (v : α)
    (h : Reachable t) (hc : contains t v = true) :
    contains (remove t v) v = false ∧
      countNodes t = countNodes (remove t v) + 1 := by
  obtain ⟨hbal, hs⟩ := reachable_invariant h
  have hs2 : (inorder (remove t v)).Pairwise (· < ·) := by
    rw [inorder_remove t v hs]
    exact List.Pairwise.sublist (List.erase_sublist v _) hs
  have hmem : v ∈ inorder t := mem_inorder_of_contains hc
  constructor
  · cases hx : contains (remove t v) v
    · rfl
    · have h2 := mem_inorder_of_contains hx
      rw [inorder_remove t v hs] at h2
      have hnd : (inorder t).Nodup := hs.imp (fun hab => ne_of_lt hab)
      exact absurd h2 hnd.not_mem_erase
  · rw [← length_inorder, ← length_inorder, inorder_remove t v hs,
      List.length_erase_of_mem hmem]
    have hne : (inorder t).length ≠ 0 := by
      intro h0
      rw [List.length_eq_zero] at h0
      rw [h0] at hmem
      simp at hmem
    omega

theorem claim3_witness :
    contains (remove (insert (.empty : BST Int) 1) 1) 1 = false ∧
      countNodes (insert (.empty : BST Int) 1) =
        countNodes (remove (insert (.empty : BST Int) 1) 1) + 1 :=
  claim3_remove_correct _ 1 (Reachable.insert 1 Reachable.empty) (by decide)

/-- C4: inserting N pairwise-distinct values into an empty tree, in any order,
yields `count_nodes = N`; inserting a value already present into a reachable
tree leaves `count_nodes` unchanged. -/
theorem claim4_size {α : Type} [LinearOrder α] :
    (∀ l : List α, l.Nodup → countNodes (List.foldl insert .empty l) = l.length) ∧
      ∀ (t : BST α) (v : α), Reachable t → contains t v = true →
        countNodes (insert t v) = countNodes t := by
  constructor
  · intro l hnd
    have h0 := countNodes_foldl_insert l (.empty : BST α) List.Pairwise.nil
      (by simp) hnd
    simpa using h0
  · intro t v h hc
    rw [insert_of_contains (reachable_invariant h).1 hc]

theorem claim4_witness :
    countNodes (List.foldl insert (.empty : BST Int) [3, 1, 2]) = 3 ∧
      countNodes (insert (insert (.empty : BST Int) 5) 5) =
        countNodes (insert (.empty : BST Int) 5) :=
  ⟨(@claim4_size Int _).1 [3, 1, 2] (by decide),
    (@claim4_size Int _).2 _ 5 (Reachable.insert 5 Reachable.empty) (by decide)⟩

/-- C5 as stated is false: on an arbitrary (unbalanced) tree, `remove` of an
absent value still rebalances the ancestors on the search path and can rotate
the tree.  Concrete counterexample: the left-spine tree 3–2–1 with `remove 4`. -/
theorem claim5_counterexample :
    contains (.node (.node (.node .empty (1 : Int) .empty) 2 .empty) 3 .empty) 4
        = false ∧
      remove (.node (.node (.node .empty (1 : Int) .empty) 2 .empty) 3 .empty) 4 ≠
        (.node (.node (.node .empty (1 : Int) .empty) 2 .empty) 3 .empty) := by
  constructor
  · decide
  · decide

/-- C5 (amended): on every balanced tree — in particular every tree reachable
via the public API — `remove` of an absent value returns the tree unchanged
(pure no-op, no error). -/
theorem claim5_remove_noop {α : Type} [LinearOrder α] (t : BST α) (v : α)
    (h : isBalanced t = true) (hc : contains t v = false) : remove t v = t :=
  remove_of_not_contains h hc

theorem claim5_witness :
    remove (insert (.empty : BST Int) 1) 2 = insert (.empty : BST Int) 1 :=
  claim5_remove_noop _ 2 (by decide) (by decide)

/-- C6: every public operation is total and terminating.  The nontrivial parts
are captured here: the `rebalance` loop reaches, in finitely many iterations of
its body, a fixed point whose root balance factor is back in `[-1, 1]` (so the
unbounded `loop` of the source always exits), and `take_max` on a nonempty tree
always yields a value (the `unreachable!` branch of the source is never hit).
All other operations are structural recursions, embedded as total functions. -/
theorem claim6_total {α : Type} [LinearOrder α] (t : BST α) :
    (∃ n, rebalanceStep^[n] t = rebalance t) ∧
      (rebalance t).balanceFactor.natAbs ≤ 1 ∧
      rebalanceStep (rebalance t) = rebalance t ∧
      (t.isEmpty = false → ((takeMax t).1).isSome = true) := by
  refine ⟨⟨2 * depth t + 2, ?_⟩, balanceFactor_rebalance t,
    rebalanceStep_of_le (balanceFactor_rebalance t), fun hne => takeMax_fst t hne⟩
  exact iterate_rebalanceStep _ (le_trans (loopMeasure_le t) (by omega))

theorem claim6_witness :
    ((takeMax (.node .empty (1 : Int) .empty)).1).isSome = true :=
  (claim6_total (.node .empty (1 : Int) .empty)).2.2.2 rfl

/-- C7 as stated is false: on a tree whose right subtree is `Empty` (and left
subtree is not), `rotate_left` is a no-op but the following `rotate_right` does
rotate, so the composition does not restore the original tree. -/
theorem claim7_counterexample :
    rotateRight (rotateLeft (.node (.node .empty (1 : Int) .empty) 2 .empty)) ≠
      (.node (.node .empty (1 : Int) .empty) 2 .empty) := by
  decide

/-- C7 (amended): whenever the first rotation actually applies (the relevant
child is a node), `rotate_left` followed by `rotate_right` restores the
original tree exactly, and symmetrically. -/
theorem claim7_rotation_inverse {α : Type} (l rl rr ll lr r : BST α)
    (v rv lv w : α) :
    rotateRight (rotateLeft (.node l v (.node rl rv rr))) =
        .node l v (.node rl rv rr) ∧
      rotateLeft (rotateRight (.node (.node ll lv lr) w r)) =
        .node (.node ll lv lr) w r := by
  constructor
  · rfl
  · rfl

/-- C8: each of the four rotations preserves the binary-search order invariant
and leaves the in-order value sequence unchanged. -/
theorem claim8_rotations_preserve_order {α : Type} [LinearOrder α] (t : BST α) :
    (inorder (rotateLeft t) = inorder t ∧ inorder (rotateRight t) = inorder t ∧
        inorder (rotateLeftRight t) = inorder t ∧
        inorder (rotateRightLeft t) = inorder t) ∧
      (isOrdered t = true →
        isOrdered (rotateLeft t) = true ∧ isOrdered (rotateRight t) = true ∧
          isOrdered (rotateLeftRight t) = true ∧
          isOrdered (rotateRightLeft t) = true) := by
  refine ⟨⟨inorder_rotateLeft t, inorder_rotateRight t, inorder_rotateLeftRight t,
    inorder_rotateRightLeft t⟩, ?_⟩
  intro ho
  rw [isOrdered_iff_pairwise] at ho
  refine ⟨?_, ?_, ?_, ?_⟩ <;> rw [isOrdered_iff_pairwise]
  · rw [inorder_rotateLeft]
    exact ho
  · rw [inorder_rotateRight]
    exact ho
  · rw [inorder_rotateLeftRight]
    exact ho
  · rw [inorder_rotateRightLeft]
    exact ho

theorem claim8_witness :
    isOrdered (rotateLeft (.node .empty (1 : Int) (.node .empty 2 .empty))) = true ∧
      isOrdered (rotateRight (.node .empty (1 : Int) (.node .empty 2 .empty))) = true ∧
      isOrdered (rotateLeftRight (.node .empty (1 : Int) (.node .empty 2 .empty))) = true ∧
      isOrdered (rotateRightLeft (.node .empty (1 : Int) (.node .empty 2 .empty))) = true :=
  (claim8_rotations_preserve_order (.node .empty (1 : Int) (.node .empty 2 .empty))).2
    (by decide)

/-- C9: on every reachable tree, `insert v` twice equals `insert v` once, and
inserting a value already present is structurally a no-op. -/
theorem claim9_insert_idempotent {α : Type} [LinearOrder α] (t : BST α) (v : α)
    (h : Reachable t) :
    insert (insert t v) v = insert t v ∧
      (contains t v = true → insert t v = t) := by
  obtain ⟨hbal, hs⟩ := reachable_invariant h
  constructor
  · have hbal2 : isBalanced (insert t v) = true := (insert_balance t v hbal).1
    have hs2 : (inorder (insert t v)).Pairwise (· < ·) := by
      rw [inorder_insert t v hs]
      exact pairwise_listInsert v _ hs
    have hc2 : contains (insert t v) v = true := by
      apply contains_of_mem_sorted hs2
      rw [inorder_insert t v hs]
      exact (mem_listInsert v v _).mpr (Or.inl rfl)
    exact insert_of_contains hbal2 hc2
  · intro hc
    exact insert_of_contains hbal hc

theorem claim9_witness :
    insert (insert (insert (.empty : BST Int) 1) 1) 1 =
        insert (insert (.empty : BST Int) 1) 1 ∧
      (contains (insert (.empty : BST Int) 1) 1 = true →
        insert (insert (.empty : BST Int) 1) 1 = insert (.empty : BST Int) 1) :=
  claim9_insert_idempotent _ 1 (Reachable.insert 1 Reachable.empty)

/-- C10: on every reachable tree, removing `v` never changes membership of any
other value `w ≠ v` (in particular the two-child deletion via `take_max`
preserves all other values). -/
theorem claim10_remove_preserves_others {α : Type} [LinearOrder α] (t : BST α)
    (v w : α) (h : Reachable t) (hne : v ≠ w) :
    contains (remove t v) w = contains t w := by
  obtain ⟨hbal, hs⟩ := reachable_invariant h
  have hs2 : (inorder (remove t v)).Pairwise (· < ·) := by
    rw [inorder_remove t v hs]
    exact List.Pairwise.sublist (List.erase_sublist v _) hs
  have hnd : (inorder t).Nodup := hs.imp (fun hab => ne_of_lt hab)
  have hiff : contains (remove t v) w = true ↔ contains t w = true := by
    rw [contains_iff_mem hs2, contains_iff_mem hs, inorder_remove t v hs,
      hnd.mem_erase_iff]
    constructor
    · rintro ⟨h1, h2⟩
      exact h2
    · intro h1
      exact ⟨Ne.symm hne, h1⟩
  cases hcw : contains t w
  · cases hx : contains (remove t v) w
    · rfl
    · exact absurd (hiff.mp hx) (by simp [hcw])
  · exact hiff.mpr hcw

theorem claim10_witness :
    contains (remove (insert (insert (.empty : BST Int) 1) 2) 1) 2 =
      contains (insert (insert (.empty : BST Int) 1) 2) 2 :=
  claim10_remove_preserves_others _ 1 2
    (Reachable.insert 2 (Reachable.insert 1 Reachable.empty)) (by decide)

end BST
